import Mathlib

/-!
Verification development for the LEED solver adapter
(src/src/py2dmat/solver/leed.py of the 2DMAT_LEED repository).

The Python module is shallowly embedded below.  File contents are lists of
characters, directories and files are abstracted by the data they contribute
to the control flow, Python floats are idealized as rationals, and every
fallible Python operation is modelled with Option or Except.  The embedded
functions keep the names of the Python functions they translate where Lean
permits it.
-/

/-! ## Character-list infrastructure: prefix and substring occurrence -/

/-- Boolean test that `p` is a prefix of `s` (used to model the scanning
done by the Python `str.replace` method). -/
def isPre : List Char → List Char → Bool
  | [], _ => true
  | _ :: _, [] => false
  | a :: as, b :: bs => a == b && isPre as bs

/-- Boolean test that `p` occurs as a contiguous substring of `s`
(models the Python `in` operator on strings). -/
def occB (p : List Char) : List Char → Bool
  | [] => isPre p []
  | c :: cs => isPre p (c :: cs) || occB p cs

/-- Proposition form of `isPre`. -/
def Pre (p s : List Char) : Prop := isPre p s = true

/-- Proposition form of `occB`: `p` occurs as a contiguous substring of `s`. -/
def Occ (p s : List Char) : Prop := occB p s = true

instance (p s : List Char) : Decidable (Pre p s) :=
  inferInstanceAs (Decidable (isPre p s = true))

instance (p s : List Char) : Decidable (Occ p s) :=
  inferInstanceAs (Decidable (occB p s = true))

/-! ## Decimal digit strings (models Python str(n) and zfill) -/

/-- The character for a decimal digit value below ten. -/
def digitChar : Nat → Char
  | 0 => '0' | 1 => '1' | 2 => '2' | 3 => '3' | 4 => '4'
  | 5 => '5' | 6 => '6' | 7 => '7' | 8 => '8' | _ => '9'

/-- Fuel-driven accumulator loop producing the decimal digits of `n`
in front of `acc`.  Any fuel of at least the digit count of `n` gives
the same answer (proved below). -/
def natDigitsAux : Nat → Nat → List Char → List Char
  | 0, _, acc => acc
  | fuel+1, n, acc =>
    if n < 10 then digitChar n :: acc
    else natDigitsAux fuel (n / 10) (digitChar (n % 10) :: acc)

/-- Decimal digit string of a natural number, as Python str(n) produces it
for a non-negative int (no sign, no leading zeros, and "0" for zero). -/
def natDigits (n : Nat) : List Char := natDigitsAux (n + 1) n []

/-- Pad `l` on the left with copies of `c` to length at least `k`. -/
def padLeft (c : Char) (k : Nat) (l : List Char) : List Char :=
  List.replicate (k - l.length) c ++ l

/-- Models Python str(n).zfill(k) for a natural number `n`: the decimal
digits of `n`, left-padded with the zero character to width at least `k`. -/
def zfill (k n : Nat) : List Char := padLeft '0' k (natDigits n)

/-- Numeric value of a digit character. -/
def digitVal (c : Char) : Nat := c.toNat - 48

/-- Boolean test for a decimal digit character. -/
def isDigitCh (c : Char) : Bool := 48 ≤ c.toNat && c.toNat ≤ 57

/-- Value of a decimal digit string, most significant digit first. -/
def digitsVal (l : List Char) : Nat := l.foldl (fun a c => 10 * a + digitVal c) 0

/-! ## The fixed-format parameter field (Solver.Input._write_fit_file)

The Python line is  svariable = "{:7.4f}".format(float(variable)).
CPython formats the value rounded to four decimal places, rounding a tie
to even, and left-pads the result with spaces to width at least seven.
The rational idealization below reproduces this on exactly representable
inputs; a negative zero is rendered without its sign, a corner no claim
depends on. -/

/-- Round a rational to the nearest integer, ties to even. -/
def roundHalfEven (q : ℚ) : ℤ :=
  let f := ⌊q⌋
  let r := q - (f : ℚ)
  if r < 1/2 then f
  else if 1/2 < r then f + 1
  else if f % 2 = 0 then f else f + 1

/-- Render an integer number of ten-thousandths in the fixed F7.4 field:
optional minus sign, integer part, a point, exactly four fraction digits,
space-padded on the left to width at least seven. -/
def fmtOfInt (n : ℤ) : List Char :=
  let m := n.natAbs
  let body := (if n < 0 then ['-'] else []) ++
    natDigits (m / 10000) ++ '.' :: zfill 4 (m % 10000)
  padLeft ' ' 7 body

/-- The formatted parameter field produced for the parameter value `q`,
modelling the expression in the Python source named above. -/
def fmtF74 (q : ℚ) : List Char := fmtOfInt (roundHalfEven (q * 10000))

/-- Placeholder token for parameter index `idx`: the Python expression
is the string opt followed by str(idx).zfill(4). -/
def tokL (idx : Nat) : List Char := 'o' :: 'p' :: 't' :: zfill 4 idx

/-! ## Replacement of every occurrence of a pattern (Python str.replace)

Python str.replace scans left to right and replaces each non-overlapping
occurrence of the pattern.  The loop below consumes at least one character
per step, so fuel equal to the length of the string always suffices; fuel
independence is proved below. -/

/-- Fuel-driven left-to-right replace-all loop. -/
def replaceAllAux (pat rep : List Char) : Nat → List Char → List Char
  | _, [] => []
  | 0, s => s
  | fuel+1, c :: cs =>
    if isPre pat (c :: cs) && !pat.isEmpty then
      rep ++ replaceAllAux pat rep fuel (List.drop (pat.length - 1) cs)
    else
      c :: replaceAllAux pat rep fuel cs

/-- Replace every (leftmost, non-overlapping) occurrence of `pat` in `s`
by `rep`, as Python s.replace(pat, rep) does for a non-empty pattern. -/
def replaceAll (pat rep s : List Char) : List Char :=
  replaceAllAux pat rep s.length s

/-- Loop body of Solver.Input._write_fit_file: the Python source iterates
for idx, variable in enumerate(variables) and performs
contents = contents.replace("opt" + str(idx).zfill(4), svariable);
the running index of enumerate is the explicit first argument here. -/
def write_fit_aux (idx : Nat) (vars : List ℚ) (contents : List Char) : List Char :=
  match vars with
  | [] => contents
  | v :: vs => write_fit_aux (idx + 1) vs (replaceAll (tokL idx) (fmtF74 v) contents)

/-- Solver.Input._write_fit_file on the in-memory file contents: inject the
parameter vector into the template text (the file read and write around it
are abstracted away; the function maps old contents to new contents). -/
def write_fit_file (vars : List ℚ) (contents : List Char) : List Char :=
  write_fit_aux 0 vars contents

/-! ## Workspace directory name (Solver.Input._pre_dir) -/

/-- The directory name "Log{...}_{...}".format(Log_number, iset) built by
Solver.Input._pre_dir, each number zero-padded to width at least eight
(the format spec 08d); the makedirs side effect is not modelled. -/
def pre_dir_name (log_number iset : Nat) : List Char :=
  "Log".toList ++ zfill 8 log_number ++ '_' :: zfill 8 iset

/-! ## Result extraction (Solver.get_results) -/

/-- Python exceptions that the get_results body can raise. -/
inductive PyErr
  | fileNotFound
  | indexError
  | valueError
  | unboundLocal
deriving DecidableEq

/-- A Python float as far as this module uses it: positive infinity or a
finite value idealized as a rational. -/
inductive PyFloat
  | inf
  | fin (q : ℚ)
deriving DecidableEq

/-- The configured remove_work_dir value: info_s["post"].get returns either
a parsed boolean or a string, depending on the configuration file. -/
inductive RmFlag
  | pybool (b : Bool)
  | pystr (s : List Char)

/-- The Python comparison self.remove_work_dir == "true": a Python bool
never equals a string, and a string is compared by contents. -/
def rmflagTrue : RmFlag → Bool
  | .pybool _ => false
  | .pystr s => s == "true".toList

/-- Observable state of the workspace directory as get_results reads it:
whether the marker file named iv 1 exists, and the lines of search.s when
that file exists. -/
structure WorkDir where
  has_iv1 : Bool
  search_s : Option (List (List Char))

/-- Split a character list at every occurrence of the separator, as the
Python str.split method with an explicit separator does. -/
def splitOnChar (sep : Char) : List Char → List (List Char)
  | [] => [[]]
  | c :: cs =>
    let r := splitOnChar sep cs
    if c == sep then [] :: r
    else
      match r with
      | [] => [[c]]
      | h :: t => (c :: h) :: t

/-- Parse a plain decimal numeral the way Python float() accepts it
(surrounding spaces, an optional sign, digits with at most one point),
returning the scaled mantissa and the count of fraction digits.  Exponent
forms and the inf and nan spellings are outside what this module needs. -/
def parsePyDec (s : List Char) : Option (ℤ × ℕ) :=
  let t := (((s.dropWhile (· == ' ')).reverse).dropWhile (· == ' ')).reverse
  let sgn : ℤ := match t with
    | '-' :: _ => -1
    | _ => 1
  let u : List Char := match t with
    | '-' :: r => r
    | '+' :: r => r
    | r => r
  match splitOnChar '.' u with
  | [ip] =>
    if !ip.isEmpty && ip.all isDigitCh then some (sgn * digitsVal ip, 0) else none
  | [ip, fp] =>
    if (!ip.isEmpty || !fp.isEmpty) && ip.all isDigitCh && fp.all isDigitCh then
      some (sgn * (digitsVal ip * 10 ^ fp.length + digitsVal fp), fp.length)
    else none
  | _ => none

/-- Python float() on the model above, as a rational. -/
def parsePyFloat (s : List Char) : Option ℚ :=
  (parsePyDec s).map (fun p => (p.1 : ℚ) / 10 ^ p.2)

/-- The scanned label: the Python literal "R-FACTOR". -/
def rLabel : List Char := "R-FACTOR".toList

/-- First line containing the label, as the for line in lines loop with its
break finds it. -/
def scanRFactor : List (List Char) → Option (List Char)
  | [] => none
  | l :: ls => if occB rLabel l then some l else scanRFactor ls

/-- Evaluate float(line.split("=")[1]) on the matching line: taking index 1
of the split raises IndexError when the line has no equals sign, and
float() raises ValueError on an unparsable segment. -/
def rfactorOfLine (line : List Char) : Except PyErr PyFloat :=
  match (splitOnChar '=' line).get? 1 with
  | none => .error .indexError
  | some seg =>
    match parsePyFloat seg with
    | none => .error .valueError
    | some q => .ok (.fin q)

/-- Solver.get_results.  The Python body, in order: if the marker file iv 1
is absent, rfactor is assigned positive infinity; search.s is then opened
unconditionally (FileNotFoundError when absent); the first line containing
R-FACTOR reassigns rfactor from the text after the first equals sign; the
workspace is removed when remove_work_dir equals the string "true"; finally
rfactor is returned, raising UnboundLocalError when it was never assigned.
The returned pair is (workspace was removed, outcome). -/
def get_results (flag : RmFlag) (w : WorkDir) : Bool × Except PyErr PyFloat :=
  let r0 : Option PyFloat := if w.has_iv1 then none else some .inf
  match w.search_s with
  | none => (false, .error .fileNotFound)
  | some lines =>
    match scanRFactor lines with
    | none =>
      let removed := rmflagTrue flag
      match r0 with
      | none => (removed, .error .unboundLocal)
      | some v => (removed, .ok v)
    | some line =>
      match rfactorOfLine line with
      | .error e => (false, .error e)
      | .ok v =>
        let removed := rmflagTrue flag
        (removed, .ok v)

/-! ## Working-directory discipline of Solver.prepare -/

/-- The last four statements of Solver.prepare:
cwd = os.getcwd(); os.chdir(self.work_dir); self.input.prepare(message);
os.chdir(cwd).  The injection step is abstracted by the argument inject,
which receives the directory it runs in; an exception raised by it skips
the remaining statement, so the process working directory it leaves behind
is part of the result.  The returned pair is (final working directory,
outcome). -/
def prepare_cwd (cwd0 work_dir : List Char) (inject : List Char → Except PyErr Unit) :
    List Char × Except PyErr Unit :=
  let cwd := cwd0
  match inject work_dir with
  | .error e => (work_dir, .error e)
  | .ok _ => (cwd, .ok ())

/-! ## Reference-directory validation in Solver.__init__ -/

/-- The required files checked at construction. -/
def required_files : List String := ["exp.d", "rfac.d", "tleed4.i", "tleed5.i"]

/-- The InputError message text for a missing file, following the f-string
in the source. -/
def missing_msg (file base_dir : String) : String :=
  "ERROR: input file (" ++ file ++ ") is not found in (" ++ base_dir ++ ")"

/-- The for file in files loop: the first missing file raises InputError
with the message above.  The predicate present abstracts
os.path.exists(os.path.join(base_dir, file)). -/
def check_files_from (present : String → Bool) (base_dir : String) :
    List String → Except String Unit
  | [] => .ok ()
  | f :: fs =>
    if present f then check_files_from present base_dir fs
    else .error (missing_msg f base_dir)

/-- The reference-file validation step of Solver.__init__. -/
def check_reference_files (present : String → Bool) (base_dir : String) :
    Except String Unit :=
  check_files_from present base_dir required_files

/-! ## Solver.run -/

/-- The exception type subprocess.CalledProcessError as far as run uses it. -/
inductive RunErr
  | calledProcessError
deriving DecidableEq

/-- Modelled from the spec: SolverBase._run_by_subprocess belongs to the
py2dmat framework and is not under src/; per the spec it executes the
given command synchronously and a non-zero exit status of the external
process surfaces as subprocess.CalledProcessError. -/
def run_by_subprocess (exit_code : Nat) : Except RunErr Unit :=
  if exit_code = 0 then .ok () else .error .calledProcessError

/-- Observable outcome of one call to Solver.run. -/
structure RunTrace where
  second_invoked : Bool
  logged : Bool
  propagated : Option RunErr
deriving DecidableEq

/-- Solver.run: both solver invocations inside one try block whose except
subprocess.CalledProcessError handler only prints a message.  The exit
statuses of the two external executables are the arguments; the second is
only reached when the first succeeds, and no error ever propagates. -/
def solver_run (ec1 ec2 : Nat) : RunTrace :=
  match run_by_subprocess ec1 with
  | .error _ => { second_invoked := false, logged := true, propagated := none }
  | .ok _ =>
    match run_by_subprocess ec2 with
    | .error _ => { second_invoked := true, logged := true, propagated := none }
    | .ok _ => { second_invoked := true, logged := false, propagated := none }

/-! ## Lemmas: prefix and occurrence -/

theorem pre_nil (s : List Char) : Pre [] s := rfl

theorem pre_cons_iff {a b : Char} {as bs : List Char} :
    Pre (a :: as) (b :: bs) ↔ a = b ∧ Pre as bs := by
  simp [Pre, isPre, Bool.and_eq_true, beq_iff_eq]

theorem not_pre_cons_nil (a : Char) (as : List Char) : ¬ Pre (a :: as) [] := by
  simp [Pre, isPre]

theorem pre_iff {p s : List Char} : Pre p s ↔ ∃ t, s = p ++ t := by
  induction p generalizing s with
  | nil => simp [pre_nil]
  | cons a as ih =>
    cases s with
    | nil =>
      simp only [Pre, isPre]
      constructor
      · intro h; exact absurd h (by simp)
      · rintro ⟨t, ht⟩; cases ht
    | cons b bs =>
      rw [pre_cons_iff, ih]
      constructor
      · rintro ⟨rfl, t, rfl⟩; exact ⟨t, rfl⟩
      · rintro ⟨t, ht⟩
        injection ht with h1 h2
        exact ⟨h1.symm, t, h2⟩

theorem pre_append (p t : List Char) : Pre p (p ++ t) := pre_iff.mpr ⟨t, rfl⟩

theorem pre_refl (p : List Char) : Pre p p := by
  simpa using pre_append p []

theorem occ_nil_iff {p : List Char} : Occ p [] ↔ p = [] := by
  cases p with
  | nil => simp [Occ, occB, isPre]
  | cons a as => simp [Occ, occB, isPre]

theorem occ_cons_iff {p : List Char} {c : Char} {s : List Char} :
    Occ p (c :: s) ↔ Pre p (c :: s) ∨ Occ p s := by
  simp [Occ, occB, Pre, Bool.or_eq_true]

theorem occ_of_pre {p s : List Char} (h : Pre p s) : Occ p s := by
  cases s with
  | nil =>
    rcases pre_iff.mp h with ⟨t, ht⟩
    rcases List.append_eq_nil.mp ht.symm with ⟨rfl, rfl⟩
    exact occ_nil_iff.mpr rfl
  | cons c cs => exact occ_cons_iff.mpr (Or.inl h)

theorem occ_iff {p s : List Char} : Occ p s ↔ ∃ a b, s = a ++ p ++ b := by
  induction s with
  | nil =>
    rw [occ_nil_iff]
    constructor
    · rintro rfl; exact ⟨[], [], rfl⟩
    · rintro ⟨a, b, h⟩
      rcases List.append_eq_nil.mp h.symm with ⟨h1, rfl⟩
      exact (List.append_eq_nil.mp h1).2
  | cons c cs ih =>
    rw [occ_cons_iff, ih]
    constructor
    · rintro (h | ⟨a, b, rfl⟩)
      · rcases pre_iff.mp h with ⟨t, ht⟩
        exact ⟨[], t, by simpa using ht⟩
      · exact ⟨c :: a, b, rfl⟩
    · rintro ⟨a, b, h⟩
      cases a with
      | nil =>
        exact Or.inl (pre_iff.mpr ⟨b, by simpa using h⟩)
      | cons x xs =>
        injection h with h1 h2
        exact Or.inr ⟨xs, b, h2⟩

theorem occ_append_right {p : List Char} (a : List Char) {b : List Char}
    (h : Occ p b) : Occ p (a ++ b) := by
  rcases occ_iff.mp h with ⟨x, y, rfl⟩
  exact occ_iff.mpr ⟨a ++ x, y, by simp⟩

theorem occ_append_left {p a : List Char} (b : List Char)
    (h : Occ p a) : Occ p (a ++ b) := by
  rcases occ_iff.mp h with ⟨x, y, rfl⟩
  exact occ_iff.mpr ⟨x, y ++ b, by simp⟩

theorem occ_trans_occ {p q s : List Char} (hpq : Occ p q) (hqs : Occ q s) : Occ p s := by
  rcases occ_iff.mp hpq with ⟨x, y, rfl⟩
  rcases occ_iff.mp hqs with ⟨a, b, rfl⟩
  exact occ_iff.mpr ⟨a ++ x, y ++ b, by simp⟩

theorem occ_head_of_occ {p s : List Char} (h : Occ p s) {c : Char} (hc : c ∈ p) :
    c ∈ s := by
  rcases occ_iff.mp h with ⟨a, b, rfl⟩
  simp [hc]

theorem occ_mono_left {u1 u2 s : List Char} (h : Occ (u1 ++ u2) s) : Occ u1 s := by
  rcases occ_iff.mp h with ⟨a, b, rfl⟩
  exact occ_iff.mpr ⟨a, u2 ++ b, by simp⟩

theorem pre_append_elim {u a b : List Char} (h : Pre u (a ++ b)) :
    (∃ t, a = u ++ t) ∨ (∃ u2, u = a ++ u2 ∧ Pre u2 b) := by
  induction a generalizing u with
  | nil => exact Or.inr ⟨u, rfl, by simpa using h⟩
  | cons x xs ih =>
    cases u with
    | nil => exact Or.inl ⟨x :: xs, rfl⟩
    | cons y ys =>
      rcases pre_cons_iff.mp h with ⟨rfl, h2⟩
      rcases ih h2 with ⟨t, ht⟩ | ⟨u2, hu2, hp⟩
      · exact Or.inl ⟨t, by rw [ht]; rfl⟩
      · exact Or.inr ⟨u2, by rw [hu2]; rfl, hp⟩

theorem occ_append_elim {u a b : List Char} (h : Occ u (a ++ b)) :
    Occ u a ∨ Occ u b ∨
      ∃ u1 u2, u = u1 ++ u2 ∧ u1 ≠ [] ∧ u2 ≠ [] ∧ (∃ x, a = x ++ u1) ∧ Pre u2 b := by
  induction a with
  | nil => exact Or.inr (Or.inl (by simpa using h))
  | cons x xs ih =>
    rcases occ_cons_iff.mp (show Occ u (x :: (xs ++ b)) by simpa using h) with hp | ho
    · rcases pre_append_elim (a := x :: xs) (by simpa using hp) with ⟨t, ht⟩ | ⟨u2, hu2, hp2⟩
      · exact Or.inl (occ_iff.mpr ⟨[], t, by simpa using ht⟩)
      · cases u2 with
        | nil =>
          refine Or.inl (occ_iff.mpr ⟨[], [], ?_⟩)
          simpa using hu2.symm
        | cons z zs =>
          exact Or.inr (Or.inr ⟨x :: xs, z :: zs, hu2, by simp, by simp, ⟨[], rfl⟩, hp2⟩)
    · rcases ih ho with h1 | h2 | ⟨u1, u2, he, hn1, hn2, ⟨y, hy⟩, hp2⟩
      · exact Or.inl (occ_append_right [x] (b := xs) (by simpa using h1))
      · exact Or.inr (Or.inl h2)
      · exact Or.inr (Or.inr ⟨u1, u2, he, hn1, hn2, ⟨x :: y, by rw [hy]; rfl⟩, hp2⟩)

theorem pre_length_le {p s : List Char} (h : Pre p s) : p.length ≤ s.length := by
  rcases pre_iff.mp h with ⟨t, rfl⟩
  simp

theorem pre_eq_of_length {p u b : List Char} (h : Pre p (u ++ b))
    (hl : p.length = u.length) : p = u := by
  rcases pre_append_elim h with ⟨t, ht⟩ | ⟨u2, hu2, _⟩
  · have : u.length = p.length + t.length := by rw [ht]; simp
    have ht0 : t.length = 0 := by omega
    rw [ht, List.length_eq_zero.mp ht0, List.append_nil]
  · have : p.length = u.length + u2.length := by rw [hu2]; simp
    have hu0 : u2.length = 0 := by omega
    rw [hu2, List.length_eq_zero.mp hu0, List.append_nil]

/-! ## Lemmas: the replace-all loop -/

theorem replaceAllAux_fuel (pat rep : List Char) :
    ∀ f g s, s.length ≤ f → s.length ≤ g →
      replaceAllAux pat rep f s = replaceAllAux pat rep g s := by
  intro f
  induction f with
  | zero =>
    intro g s hf _
    have hs : s = [] := List.length_eq_zero.mp (Nat.le_zero.mp hf)
    subst hs
    cases g <;> rfl
  | succ f ih =>
    intro g s hf hg
    cases s with
    | nil => cases g <;> rfl
    | cons c cs =>
      cases g with
      | zero => exact absurd hg (by simp)
      | succ g =>
        simp only [replaceAllAux]
        by_cases h : (isPre pat (c :: cs) && !pat.isEmpty) = true
        · rw [if_pos h, if_pos h]
          have hd : (List.drop (pat.length - 1) cs).length ≤ cs.length := by
            rw [List.length_drop]; omega
          have hcf : cs.length ≤ f := by simpa using hf
          have hcg : cs.length ≤ g := by simpa using hg
          rw [ih g _ (le_trans hd hcf) (le_trans hd hcg)]
        · rw [if_neg h, if_neg h]
          have hcf : cs.length ≤ f := by simpa using hf
          have hcg : cs.length ≤ g := by simpa using hg
          rw [ih g cs hcf hcg]

theorem replaceAll_nil (pat rep : List Char) : replaceAll pat rep [] = [] := rfl

theorem replaceAll_cons_match {pat : List Char} (rep : List Char) {c : Char} {cs : List Char}
    (hne : pat ≠ []) (hp : Pre pat (c :: cs)) :
    replaceAll pat rep (c :: cs) =
      rep ++ replaceAll pat rep (List.drop (pat.length - 1) cs) := by
  have hpe : pat.isEmpty = false := by
    cases pat with
    | nil => exact absurd rfl hne
    | cons a as => rfl
  unfold replaceAll
  simp only [List.length_cons, replaceAllAux]
  rw [if_pos (by rw [Pre] at hp; rw [hp, hpe]; rfl)]
  have hd : (List.drop (pat.length - 1) cs).length ≤ cs.length := by
    rw [List.length_drop]; omega
  rw [replaceAllAux_fuel pat rep cs.length (List.drop (pat.length - 1) cs).length _ hd le_rfl]

theorem replaceAll_cons_nomatch {pat : List Char} (rep : List Char) {c : Char} {cs : List Char}
    (hp : ¬ Pre pat (c :: cs)) :
    replaceAll pat rep (c :: cs) = c :: replaceAll pat rep cs := by
  have hf : isPre pat (c :: cs) = false := by
    rw [Pre] at hp
    exact Bool.not_eq_true _ ▸ Bool.of_not_eq_true hp
  unfold replaceAll
  simp only [List.length_cons, replaceAllAux]
  rw [if_neg (by rw [hf]; simp)]

theorem replaceAll_copy {p0 : Char} {pt : List Char} (rep : List Char) {w : List Char}
    (rest : List Char) (hw : p0 ∉ w) :
    replaceAll (p0 :: pt) rep (w ++ rest) = w ++ replaceAll (p0 :: pt) rep rest := by
  induction w with
  | nil => simp
  | cons c w' ih =>
    have hnp : ¬ Pre (p0 :: pt) (c :: (w' ++ rest)) := by
      intro h
      rcases pre_cons_iff.mp h with ⟨he, _⟩
      exact hw (he ▸ List.mem_cons_self _ _)
    rw [List.cons_append, replaceAll_cons_nomatch rep hnp,
      ih (fun h => hw (List.mem_cons_of_mem _ h))]
    rfl

theorem replaceAll_of_not_occ {pat rep : List Char} :
    ∀ s, ¬ Occ pat s → replaceAll pat rep s = s := by
  intro s
  induction s with
  | nil => intro _; rfl
  | cons c cs ih =>
    intro h
    have hnp : ¬ Pre pat (c :: cs) := fun hp => h (occ_of_pre hp)
    rw [replaceAll_cons_nomatch rep hnp, ih (fun ho => h (occ_cons_iff.mpr (Or.inr ho)))]

theorem pre_split_le {a p s : List Char} (ha : Pre a s) (hp : Pre p s)
    (hl : p.length ≤ a.length) : ∃ a', a = p ++ a' := by
  rcases pre_iff.mp ha with ⟨x, rfl⟩
  rcases pre_iff.mp hp with ⟨y, hy⟩
  refine ⟨a.drop p.length, ?_⟩
  have ht : (a ++ x).take p.length = p := by rw [hy, List.take_left]
  have ht2 : (a ++ x).take p.length = a.take p.length := by
    rw [List.take_append_eq_append_take]
    have h0 : p.length - a.length = 0 := by omega
    rw [h0]
    simp
  have h3 : a.take p.length = p := by rw [← ht2, ht]
  conv_lhs => rw [← List.take_append_drop p.length a]
  rw [h3]

theorem pre_replaceAll_peel {p0 r0 : Char} {pt rt : List Char} :
    ∀ w s, r0 ∉ w → Pre w (replaceAll (p0 :: pt) (r0 :: rt) s) → Pre w s := by
  intro w
  induction w with
  | nil => intro s _ _; exact pre_nil s
  | cons c w' ih =>
    intro s hr hpre
    cases s with
    | nil => rw [replaceAll_nil] at hpre; exact absurd hpre (not_pre_cons_nil _ _)
    | cons c0 cs =>
      by_cases hm : Pre (p0 :: pt) (c0 :: cs)
      · rw [replaceAll_cons_match _ (by simp) hm] at hpre
        rcases pre_cons_iff.mp (show Pre (c :: w') (r0 :: (rt ++ _)) by simpa using hpre) with
          ⟨hc, _⟩
        exact absurd (by rw [← hc]; exact List.mem_cons_self _ _) hr
      · rw [replaceAll_cons_nomatch _ hm] at hpre
        rcases pre_cons_iff.mp hpre with ⟨hc, h2⟩
        exact pre_cons_iff.mpr ⟨hc, ih cs (fun h => hr (List.mem_cons_of_mem _ h)) h2⟩

theorem drop_eq_of_pat_pre {p0 : Char} {pt t cs : List Char} {c : Char}
    (ht : c :: cs = (p0 :: pt) ++ t) : t = List.drop ((p0 :: pt).length - 1) cs := by
  have h1 := congrArg (List.drop (p0 :: pt).length) ht
  rw [List.drop_left] at h1
  rw [← h1]
  simp

theorem occ_replaceAll_pull {p0 r0 : Char} {pt rt ut : List Char}
    (hpr : p0 ∉ r0 :: rt) (hrt : r0 ∉ ut) :
    ∀ s, Occ (p0 :: ut) (replaceAll (p0 :: pt) (r0 :: rt) s) → Occ (p0 :: ut) s := by
  suffices h : ∀ n s, s.length ≤ n →
      Occ (p0 :: ut) (replaceAll (p0 :: pt) (r0 :: rt) s) → Occ (p0 :: ut) s from
    fun s => h s.length s le_rfl
  intro n
  induction n with
  | zero =>
    intro s hs hocc
    have hse : s = [] := List.length_eq_zero.mp (Nat.le_zero.mp hs)
    subst hse
    rw [replaceAll_nil] at hocc
    exact absurd (occ_nil_iff.mp hocc) (by simp)
  | succ n ih =>
    intro s hs hocc
    cases s with
    | nil => rw [replaceAll_nil] at hocc; exact absurd (occ_nil_iff.mp hocc) (by simp)
    | cons c cs =>
      by_cases hm : Pre (p0 :: pt) (c :: cs)
      · rw [replaceAll_cons_match _ (by simp) hm] at hocc
        rcases occ_append_elim hocc with h1 | h2 | ⟨u1, u2, he, hn1, _, ⟨x, hx⟩, _⟩
        · exact absurd (occ_head_of_occ h1 (List.mem_cons_self _ _)) hpr
        · have hd : (List.drop ((p0 :: pt).length - 1) cs).length ≤ n := by
            rw [List.length_drop]
            have : cs.length ≤ n := by simpa using hs
            omega
          have h3 := ih _ hd h2
          rcases pre_iff.mp hm with ⟨t, ht⟩
          rw [ht]
          rw [← drop_eq_of_pat_pre ht] at h3
          exact occ_append_right _ h3
        · cases u1 with
          | nil => exact absurd rfl hn1
          | cons z zs =>
            injection he with hz _
            refine absurd ?_ hpr
            rw [hx, hz]
            exact List.mem_append_right _ (List.mem_cons_self _ _)
      · rw [replaceAll_cons_nomatch _ hm] at hocc
        rcases occ_cons_iff.mp hocc with hp | ho
        · rcases pre_cons_iff.mp hp with ⟨hc, h2⟩
          exact occ_of_pre (pre_cons_iff.mpr ⟨hc, pre_replaceAll_peel ut cs hrt h2⟩)
        · exact occ_cons_iff.mpr (Or.inr (ih cs (by simpa using hs) ho))

theorem not_occ_pat_replaceAll {p0 r0 : Char} {pt rt : List Char}
    (hpr : p0 ∉ r0 :: rt) (hr0 : r0 ∉ pt) :
    ∀ s, ¬ Occ (p0 :: pt) (replaceAll (p0 :: pt) (r0 :: rt) s) := by
  suffices h : ∀ n s, s.length ≤ n →
      ¬ Occ (p0 :: pt) (replaceAll (p0 :: pt) (r0 :: rt) s) from
    fun s => h s.length s le_rfl
  intro n
  induction n with
  | zero =>
    intro s hs hocc
    have hse : s = [] := List.length_eq_zero.mp (Nat.le_zero.mp hs)
    subst hse
    rw [replaceAll_nil] at hocc
    exact absurd (occ_nil_iff.mp hocc) (by simp)
  | succ n ih =>
    intro s hs hocc
    cases s with
    | nil => rw [replaceAll_nil] at hocc; exact absurd (occ_nil_iff.mp hocc) (by simp)
    | cons c cs =>
      by_cases hm : Pre (p0 :: pt) (c :: cs)
      · rw [replaceAll_cons_match _ (by simp) hm] at hocc
        rcases occ_append_elim hocc with h1 | h2 | ⟨u1, u2, he, hn1, _, ⟨x, hx⟩, _⟩
        · exact absurd (occ_head_of_occ h1 (List.mem_cons_self _ _)) hpr
        · have hd : (List.drop ((p0 :: pt).length - 1) cs).length ≤ n := by
            rw [List.length_drop]
            have : cs.length ≤ n := by simpa using hs
            omega
          exact ih _ hd h2
        · cases u1 with
          | nil => exact absurd rfl hn1
          | cons z zs =>
            injection he with hz _
            refine absurd ?_ hpr
            rw [hx, hz]
            exact List.mem_append_right _ (List.mem_cons_self _ _)
      · rw [replaceAll_cons_nomatch _ hm] at hocc
        rcases occ_cons_iff.mp hocc with hp | ho
        · rcases pre_cons_iff.mp hp with ⟨hc, h2⟩
          exact hm (pre_cons_iff.mpr ⟨hc, pre_replaceAll_peel pt cs hr0 h2⟩)
        · exact ih cs (by simpa using hs) ho

theorem occ_replaceAll_preserve {p0 u0 : Char} {pt ut : List Char} (rep : List Char)
    (h1 : u0 ∉ pt) (h2 : p0 ∉ ut)
    (h3 : u0 = p0 → (u0 :: ut).length = (p0 :: pt).length ∧ ut ≠ pt) :
    ∀ s, Occ (u0 :: ut) s → Occ (u0 :: ut) (replaceAll (p0 :: pt) rep s) := by
  suffices h : ∀ n s, s.length ≤ n →
      Occ (u0 :: ut) s → Occ (u0 :: ut) (replaceAll (p0 :: pt) rep s) from
    fun s => h s.length s le_rfl
  intro n
  induction n with
  | zero =>
    intro s hs hocc
    have hse : s = [] := List.length_eq_zero.mp (Nat.le_zero.mp hs)
    subst hse
    exact absurd (occ_nil_iff.mp hocc) (by simp)
  | succ n ih =>
    intro s hs hocc
    cases s with
    | nil => exact absurd (occ_nil_iff.mp hocc) (by simp)
    | cons c cs =>
      rcases occ_iff.mp hocc with ⟨a, b, hab⟩
      by_cases hm : Pre (p0 :: pt) (c :: cs)
      · rw [replaceAll_cons_match rep (by simp) hm]
        rcases pre_iff.mp hm with ⟨t, ht⟩
        have hpa : Pre a (c :: cs) := pre_iff.mpr ⟨(u0 :: ut) ++ b, by rw [hab]; simp⟩
        rcases Nat.lt_or_ge a.length (p0 :: pt).length with hlt | hge
        · exfalso
          rcases Nat.eq_zero_or_pos a.length with ha0 | hapos
          · have ha : a = [] := List.length_eq_zero.mp ha0
            subst ha
            have hu : Pre (u0 :: ut) (c :: cs) := pre_iff.mpr ⟨b, by simpa using hab⟩
            have hcu : c = u0 ∧ cs = ut ++ b := by simpa using hab
            have hcp : c = p0 ∧ cs = pt ++ t := by simpa using ht
            have hu0 : u0 = p0 := by rw [← hcu.1, hcp.1]
            rcases h3 hu0 with ⟨hlen, hne⟩
            obtain ⟨d, hd⟩ := pre_split_le hm hu (by omega)
            have hlen' : ut.length = pt.length := by simpa using hlen
            have hL : pt.length = ut.length + d.length := by
              have h6 := congrArg List.length hd
              simpa [List.length_append] using h6
            have hd0 : d.length = 0 := by omega
            rw [List.length_eq_zero.mp hd0, List.append_nil] at hd
            have hfin : p0 = u0 ∧ pt = ut := by simpa using hd
            exact hne hfin.2.symm
          · obtain ⟨d, hd⟩ := pre_split_le hm hpa hlt.le
            have hdne : d ≠ [] := by
              intro h0
              rw [h0, List.append_nil] at hd
              have := congrArg List.length hd
              omega
            have hub : (u0 :: ut) ++ b = d ++ t := by
              have h5 : a ++ ((u0 :: ut) ++ b) = a ++ (d ++ t) := by
                calc a ++ ((u0 :: ut) ++ b) = c :: cs := by rw [hab]; simp
                _ = (p0 :: pt) ++ t := ht
                _ = (a ++ d) ++ t := by rw [hd]
                _ = a ++ (d ++ t) := by simp
              exact List.append_cancel_left h5
            cases d with
            | nil => exact absurd rfl hdne
            | cons d0 d' =>
              injection hub with hu0d _
              cases a with
              | nil => simp at hapos
              | cons a0 a' =>
                injection hd with _ hd2
                refine absurd ?_ h1
                rw [hu0d, hd2]
                exact List.mem_append_right _ (List.mem_cons_self _ _)
        · obtain ⟨a', ha'⟩ := pre_split_le hpa hm hge
          have htt : t = a' ++ ((u0 :: ut) ++ b) := by
            have h5 : (p0 :: pt) ++ t = (p0 :: pt) ++ (a' ++ ((u0 :: ut) ++ b)) := by
              calc (p0 :: pt) ++ t = c :: cs := ht.symm
              _ = a ++ ((u0 :: ut) ++ b) := by rw [hab]; simp
              _ = ((p0 :: pt) ++ a') ++ ((u0 :: ut) ++ b) := by rw [ha']
              _ = (p0 :: pt) ++ (a' ++ ((u0 :: ut) ++ b)) := by simp
            exact List.append_cancel_left h5
          have hot : Occ (u0 :: ut) t := occ_iff.mpr ⟨a', b, by rw [htt]; simp⟩
          have hd : t.length ≤ n := by
            rw [drop_eq_of_pat_pre ht, List.length_drop]
            have : cs.length ≤ n := by simpa using hs
            omega
          have h6 := ih t hd hot
          rw [← drop_eq_of_pat_pre ht]
          exact occ_append_right _ h6
      · rw [replaceAll_cons_nomatch rep hm]
        cases a with
        | nil =>
          have hab' : c = u0 ∧ cs = ut ++ b := by simpa using hab
          rw [hab'.2, replaceAll_copy rep b h2]
          exact occ_of_pre (pre_cons_iff.mpr ⟨hab'.1.symm, pre_append ut _⟩)
        | cons a0 a' =>
          have hab' : c = a0 ∧ cs = a' ++ ((u0 :: ut) ++ b) := by simpa using hab
          have hocs : Occ (u0 :: ut) cs := occ_iff.mpr ⟨a', b, by rw [hab'.2]; simp⟩
          exact occ_cons_iff.mpr (Or.inr (ih cs (by simpa using hs) hocs))

theorem occ_rep_replaceAll {p0 : Char} {pt : List Char} (rep : List Char) :
    ∀ s, Occ (p0 :: pt) s → Occ rep (replaceAll (p0 :: pt) rep s) := by
  intro s
  induction s with
  | nil => intro h; exact absurd (occ_nil_iff.mp h) (by simp)
  | cons c cs ih =>
    intro h
    by_cases hm : Pre (p0 :: pt) (c :: cs)
    · rw [replaceAll_cons_match rep (by simp) hm]
      exact occ_append_left _ (occ_of_pre (pre_refl rep))
    · rw [replaceAll_cons_nomatch rep hm]
      rcases occ_cons_iff.mp h with hp | ho
      · exact absurd hp hm
      · exact occ_cons_iff.mpr (Or.inr (ih ho))

/-! ## Lemmas: decimal digit strings -/

theorem digitChar_digit {m : Nat} (h : m < 10) : isDigitCh (digitChar m) = true := by
  interval_cases m <;> decide

theorem digitVal_digitChar {m : Nat} (h : m < 10) : digitVal (digitChar m) = m := by
  interval_cases m <;> decide

theorem digit_ne_special {c : Char} (h : isDigitCh c = true) :
    c ≠ 'o' ∧ c ≠ 'p' ∧ c ≠ 't' ∧ c ≠ ' ' ∧ c ≠ '-' ∧ c ≠ '.' := by
  refine ⟨?_, ?_, ?_, ?_, ?_, ?_⟩ <;> rintro rfl <;> exact absurd h (by decide)

theorem foldl_digits (l : List Char) :
    ∀ a : Nat, List.foldl (fun x d => 10 * x + digitVal d) a l =
      a * 10 ^ l.length + digitsVal l := by
  induction l with
  | nil => intro a; simp [digitsVal]
  | cons c cl ih =>
    intro a
    rw [List.foldl_cons, ih (10 * a + digitVal c)]
    have h2 : digitsVal (c :: cl) = (10 * 0 + digitVal c) * 10 ^ cl.length + digitsVal cl := by
      rw [digitsVal, List.foldl_cons, ih (10 * 0 + digitVal c)]
    rw [List.length_cons, h2]
    ring

theorem digitsVal_cons (c : Char) (l : List Char) :
    digitsVal (c :: l) = digitVal c * 10 ^ l.length + digitsVal l := by
  rw [digitsVal, List.foldl_cons]
  have h := foldl_digits l (10 * 0 + digitVal c)
  simpa using h

theorem natDigitsAux_spec :
    ∀ n fuel acc, n < fuel →
      ∃ d, natDigitsAux fuel n acc = d ++ acc ∧ d ≠ [] ∧
        (∀ c ∈ d, isDigitCh c = true) ∧ digitsVal d = n ∧
        n < 10 ^ d.length ∧ (d.length = 1 ∨ 10 ^ (d.length - 1) ≤ n) := by
  intro n
  induction n using Nat.strong_induction_on with
  | _ n ih =>
    intro fuel acc hf
    cases fuel with
    | zero => omega
    | succ fuel =>
      by_cases h10 : n < 10
      · refine ⟨[digitChar n], by simp [natDigitsAux, h10], by simp, ?_, ?_, by simpa using h10,
          Or.inl rfl⟩
        · intro c hc
          rw [List.mem_singleton.mp hc]
          exact digitChar_digit h10
        · rw [digitsVal_cons]
          simp [digitsVal, digitVal_digitChar h10]
      · have hge : 10 ≤ n := Nat.not_lt.mp h10
        have hnd : n / 10 < n := Nat.div_lt_self (by omega) (by omega)
        have hfd : n / 10 < fuel := by omega
        obtain ⟨d', hd1, hd2, hd3, hd4, hd5, hd6⟩ :=
          ih (n / 10) hnd fuel (digitChar (n % 10) :: acc) hfd
        have hm10 : n % 10 < 10 := Nat.mod_lt _ (by omega)
        refine ⟨d' ++ [digitChar (n % 10)], ?_, by simp, ?_, ?_, ?_, ?_⟩
        · rw [show natDigitsAux (fuel + 1) n acc =
              natDigitsAux fuel (n / 10) (digitChar (n % 10) :: acc) by
            simp [natDigitsAux, h10]]
          rw [hd1]
          simp
        · intro c hc
          rcases List.mem_append.mp hc with h | h
          · exact hd3 c h
          · rw [List.mem_singleton.mp h]
            exact digitChar_digit hm10
        · rw [digitsVal, List.foldl_append]
          have e1 : List.foldl (fun x d => 10 * x + digitVal d) 0 d' = digitsVal d' := rfl
          rw [e1, hd4]
          simp [List.foldl_cons, digitVal_digitChar hm10]
          omega
        · rw [List.length_append]
          have hp : (10 : ℕ) ^ (d'.length + 1) = 10 * 10 ^ d'.length := by ring
          simp only [List.length_singleton]
          rw [hp]
          omega
        · right
          rw [List.length_append]
          simp only [List.length_singleton]
          have hlen1 : 1 ≤ d'.length := List.length_pos.mpr hd2
          rcases hd6 with h1 | h2
          · rw [h1]
            simpa using hge
          · have he : d'.length + 1 - 1 = (d'.length - 1) + 1 := by omega
            rw [he, pow_succ]
            have h7 : 10 ^ (d'.length - 1) * 10 ≤ (n / 10) * 10 := by omega
            omega

theorem natDigits_spec (n : Nat) :
    natDigits n ≠ [] ∧ (∀ c ∈ natDigits n, isDigitCh c = true) ∧
      digitsVal (natDigits n) = n ∧ n < 10 ^ (natDigits n).length ∧
      ((natDigits n).length = 1 ∨ 10 ^ ((natDigits n).length - 1) ≤ n) := by
  obtain ⟨d, h1, h2, h3, h4, h5, h6⟩ := natDigitsAux_spec n (n + 1) [] (Nat.lt_succ_self n)
  have e : natDigits n = d := by rw [natDigits, h1, List.append_nil]
  rw [e]
  exact ⟨h2, h3, h4, h5, h6⟩

theorem natDigits_val (n : Nat) : digitsVal (natDigits n) = n := (natDigits_spec n).2.2.1

theorem natDigits_chars {n : Nat} : ∀ c ∈ natDigits n, isDigitCh c = true :=
  (natDigits_spec n).2.1

theorem natDigits_len_le {n k : Nat} (h : n < 10 ^ k) (hk : 1 ≤ k) :
    (natDigits n).length ≤ k := by
  rcases (natDigits_spec n).2.2.2.2 with h1 | h2
  · omega
  · by_contra hgt
    push_neg at hgt
    have h3 : 10 ^ k ≤ 10 ^ ((natDigits n).length - 1) :=
      Nat.pow_le_pow_right (by norm_num) (by omega)
    omega

theorem natDigits_small {n : Nat} (h : n < 10) : natDigits n = [digitChar n] := by
  rw [natDigits]
  simp [natDigitsAux, h]

/-! ## Lemmas: zfill -/

theorem zfill_chars {k n : Nat} : ∀ c ∈ zfill k n, isDigitCh c = true := by
  intro c hc
  rw [zfill, padLeft] at hc
  rcases List.mem_append.mp hc with h | h
  · rw [List.eq_of_mem_replicate h]; decide
  · exact natDigits_chars c h

theorem foldl_zeros (m : Nat) :
    List.foldl (fun x d => 10 * x + digitVal d) 0 (List.replicate m '0') = 0 := by
  induction m with
  | zero => rfl
  | succ m ih =>
    rw [List.replicate_succ, List.foldl_cons]
    have h0 : 10 * 0 + digitVal '0' = 0 := by decide
    rw [h0]
    exact ih

theorem zfill_val (k n : Nat) : digitsVal (zfill k n) = n := by
  rw [zfill, padLeft, digitsVal, List.foldl_append, foldl_zeros]
  exact natDigits_val n

theorem zfill_inj {k a b : Nat} (h : zfill k a = zfill k b) : a = b := by
  have h2 := congrArg digitsVal h
  rwa [zfill_val, zfill_val] at h2

theorem zfill_length (k n : Nat) : (zfill k n).length = max k (natDigits n).length := by
  rw [zfill, padLeft]
  simp [List.length_append, List.length_replicate]
  omega

theorem zfill_length_eq {k n : Nat} (hk : 1 ≤ k) (h : n < 10 ^ k) :
    (zfill k n).length = k := by
  rw [zfill_length]
  have h2 := natDigits_len_le h hk
  omega

/-! ## Lemmas: tokens -/

theorem tokL_inj {a b : Nat} (h : tokL a = tokL b) : a = b := by
  rw [tokL, tokL] at h
  have h4 : zfill 4 a = zfill 4 b := by simpa using h
  exact zfill_inj h4

theorem tokL_length {j : Nat} (h : j < 10000) : (tokL j).length = 7 := by
  rw [tokL]
  have h4 : (zfill 4 j).length = 4 :=
    zfill_length_eq (by norm_num) (by norm_num; omega)
  simp [h4]

theorem o_not_mem_toktail (j : Nat) : 'o' ∉ ('p' :: 't' :: zfill 4 j) := by
  intro h
  rcases List.mem_cons.mp h with h1 | h
  · exact absurd h1 (by decide)
  rcases List.mem_cons.mp h with h2 | h
  · exact absurd h2 (by decide)
  · exact absurd rfl (digit_ne_special (zfill_chars _ h)).1

theorem head_not_mem_toktail {c : Char} (hc : c = ' ' ∨ c = '-') (j : Nat) :
    c ∉ ('p' :: 't' :: zfill 4 j) := by
  intro h
  rcases List.mem_cons.mp h with h1 | h
  · rcases hc with rfl | rfl <;> exact absurd h1 (by decide)
  rcases List.mem_cons.mp h with h2 | h
  · rcases hc with rfl | rfl <;> exact absurd h2 (by decide)
  · have hd := digit_ne_special (zfill_chars _ h)
    rcases hc with rfl | rfl
    · exact absurd rfl hd.2.2.2.1
    · exact absurd rfl hd.2.2.2.2.1

/-! ## Lemmas: the formatted field -/

theorem fmtOfInt_eq (n : ℤ) :
    fmtOfInt n = List.replicate (7 - ((if n < 0 then ['-'] else []) ++
      natDigits (n.natAbs / 10000) ++ '.' :: zfill 4 (n.natAbs % 10000)).length) ' ' ++
      ((if n < 0 then ['-'] else []) ++
        natDigits (n.natAbs / 10000) ++ '.' :: zfill 4 (n.natAbs % 10000)) := by
  rw [fmtOfInt, padLeft]

theorem fmtOfInt_chars {n : ℤ} : ∀ c ∈ fmtOfInt n,
    c = ' ' ∨ c = '-' ∨ c = '.' ∨ isDigitCh c = true := by
  intro c hc
  rw [fmtOfInt_eq] at hc
  rcases List.mem_append.mp hc with h | h
  · exact Or.inl (List.eq_of_mem_replicate h)
  rcases List.mem_append.mp h with h | h
  · rcases List.mem_append.mp h with h | h
    · split at h
      · exact Or.inr (Or.inl (List.mem_singleton.mp h))
      · exact absurd h (List.not_mem_nil c)
    · exact Or.inr (Or.inr (Or.inr (natDigits_chars c h)))
  · rcases List.mem_cons.mp h with h | h
    · exact Or.inr (Or.inr (Or.inl h))
    · exact Or.inr (Or.inr (Or.inr (zfill_chars c h)))

theorem fmtOfInt_no_opt {n : ℤ} : ∀ c ∈ fmtOfInt n, c ≠ 'o' ∧ c ≠ 'p' ∧ c ≠ 't' := by
  intro c hc
  rcases fmtOfInt_chars c hc with rfl | rfl | rfl | h
  · exact ⟨by decide, by decide, by decide⟩
  · exact ⟨by decide, by decide, by decide⟩
  · exact ⟨by decide, by decide, by decide⟩
  · have hd := digit_ne_special h
    exact ⟨hd.1, hd.2.1, hd.2.2.1⟩

theorem fmtOfInt_length (n : ℤ) : 7 ≤ (fmtOfInt n).length := by
  rw [fmtOfInt_eq]
  simp [List.length_append, List.length_replicate]
  omega

theorem fmtOfInt_ne_nil (n : ℤ) : fmtOfInt n ≠ [] := by
  intro h
  have h2 := fmtOfInt_length n
  rw [h] at h2
  simp at h2

theorem fmtOfInt_head {n : ℤ} (h : n < 100000) :
    ∃ rt, fmtOfInt n = ' ' :: rt ∨ fmtOfInt n = '-' :: rt := by
  rw [fmtOfInt_eq]
  by_cases hneg : n < 0
  · rw [if_pos hneg]
    rcases Nat.lt_or_ge ((['-'] ++ natDigits (n.natAbs / 10000) ++
        '.' :: zfill 4 (n.natAbs % 10000)).length) 7 with hlt | hge
    · have h7 : 7 - (['-'] ++ natDigits (n.natAbs / 10000) ++
          '.' :: zfill 4 (n.natAbs % 10000)).length =
          (6 - (['-'] ++ natDigits (n.natAbs / 10000) ++
            '.' :: zfill 4 (n.natAbs % 10000)).length) + 1 := by omega
      rw [h7, List.replicate_succ]
      exact ⟨_, Or.inl rfl⟩
    · have h7 : 7 - (['-'] ++ natDigits (n.natAbs / 10000) ++
          '.' :: zfill 4 (n.natAbs % 10000)).length = 0 := by omega
      rw [h7]
      exact ⟨_, Or.inr rfl⟩
  · rw [if_neg hneg]
    have hm : n.natAbs < 100000 := by
      have h0 : 0 ≤ n := Int.not_lt.mp hneg
      omega
    have hdiv : n.natAbs / 10000 < 10 := by omega
    have hz : (zfill 4 (n.natAbs % 10000)).length = 4 := by
      refine zfill_length_eq (by norm_num) ?_
      have h4 : n.natAbs % 10000 < 10000 := Nat.mod_lt _ (by norm_num)
      norm_num
      omega
    rw [natDigits_small hdiv]
    have hlen : (([] : List Char) ++ [digitChar (n.natAbs / 10000)] ++
        '.' :: zfill 4 (n.natAbs % 10000)).length = 6 := by
      simp [hz]
    rw [hlen]
    rw [show (7 - 6 : Nat) = 1 by norm_num]
    exact ⟨_, Or.inl rfl⟩

theorem fmtOfInt_fourdec (n : ℤ) :
    ∃ pre d4, fmtOfInt n = pre ++ '.' :: d4 ∧ d4.length = 4 ∧
      ∀ c ∈ d4, isDigitCh c = true := by
  refine ⟨List.replicate (7 - ((if n < 0 then ['-'] else []) ++
      natDigits (n.natAbs / 10000) ++ '.' :: zfill 4 (n.natAbs % 10000)).length) ' ' ++
      ((if n < 0 then ['-'] else []) ++ natDigits (n.natAbs / 10000)),
    zfill 4 (n.natAbs % 10000), ?_, ?_, zfill_chars⟩
  · rw [fmtOfInt_eq]
    simp [List.append_assoc]
  · refine zfill_length_eq (by norm_num) ?_
    have h4 : n.natAbs % 10000 < 10000 := Nat.mod_lt _ (by norm_num)
    norm_num
    omega

theorem fmtF74_split {v : ℚ} (h : roundHalfEven (v * 10000) < 100000) :
    ∃ r0 rt, fmtF74 v = r0 :: rt ∧ (r0 = ' ' ∨ r0 = '-') ∧ 'o' ∉ (r0 :: rt) := by
  obtain ⟨rt, hor⟩ := fmtOfInt_head (n := roundHalfEven (v * 10000)) h
  have hno : 'o' ∉ fmtF74 v := fun hm => (fmtOfInt_no_opt 'o' hm).1 rfl
  rcases hor with he | he
  · exact ⟨' ', rt, he, Or.inl rfl, by rw [← he]; exact hno⟩
  · exact ⟨'-', rt, he, Or.inr rfl, by rw [← he]; exact hno⟩

/-! ## Lemmas: the injection loop -/

theorem write_fit_nil (idx : Nat) (s : List Char) : write_fit_aux idx [] s = s := rfl

theorem write_fit_cons (idx : Nat) (v : ℚ) (vs : List ℚ) (s : List Char) :
    write_fit_aux idx (v :: vs) s =
      write_fit_aux (idx + 1) vs (replaceAll (tokL idx) (fmtF74 v) s) := rfl

theorem pull_tok {j k : Nat} {r0 : Char} {rt : List Char}
    (hr0 : r0 = ' ' ∨ r0 = '-') (ho : 'o' ∉ r0 :: rt) :
    ∀ s, Occ (tokL j) (replaceAll (tokL k) (r0 :: rt) s) → Occ (tokL j) s := by
  intro s h
  simp only [tokL] at h ⊢
  exact occ_replaceAll_pull ho (head_not_mem_toktail hr0 j) s h

theorem noleft_tok {k : Nat} {r0 : Char} {rt : List Char}
    (hr0 : r0 = ' ' ∨ r0 = '-') (ho : 'o' ∉ r0 :: rt) :
    ∀ s, ¬ Occ (tokL k) (replaceAll (tokL k) (r0 :: rt) s) := by
  intro s
  simp only [tokL]
  exact not_occ_pat_replaceAll ho (head_not_mem_toktail hr0 k) s

theorem keep_tok {j k : Nat} (hjk : j ≠ k) (hj : j < 10000) (hk : k < 10000)
    (rep : List Char) :
    ∀ s, Occ (tokL j) s → Occ (tokL j) (replaceAll (tokL k) rep s) := by
  intro s h
  simp only [tokL] at h ⊢
  refine occ_replaceAll_preserve rep (o_not_mem_toktail k) (o_not_mem_toktail j) ?_ s h
  intro _
  constructor
  · have l1 := tokL_length hj
    have l2 := tokL_length hk
    simp only [tokL] at l1 l2
    rw [l1, l2]
  · intro he
    refine hjk (tokL_inj ?_)
    simp only [tokL]
    rw [he]

theorem write_fit_pull {j : Nat} :
    ∀ (vs : List ℚ) (k : Nat) (s : List Char),
      (∀ v ∈ vs, roundHalfEven (v * 10000) < 100000) →
      (j < k ∨ k + vs.length ≤ j) →
      ¬ Occ (tokL j) s → ¬ Occ (tokL j) (write_fit_aux k vs s) := by
  intro vs
  induction vs with
  | nil => intro k s _ _ h; exact h
  | cons v vs ih =>
    intro k s hval hrange hno
    rw [write_fit_cons]
    refine ih (k + 1) _ (fun w hw => hval w (List.mem_cons_of_mem _ hw))
      (by rcases hrange with h | h
          · exact Or.inl (by omega)
          · exact Or.inr (by simp at h ⊢; omega)) ?_
    intro hocc
    obtain ⟨r0, rt, hfmt, hr0, ho⟩ := fmtF74_split (hval v (List.mem_cons_self _ _))
    rw [hfmt] at hocc
    exact hno (pull_tok hr0 ho s hocc)

theorem write_fit_no_tok :
    ∀ (vs : List ℚ) (k j : Nat) (s : List Char),
      (∀ v ∈ vs, roundHalfEven (v * 10000) < 100000) →
      k ≤ j → j < k + vs.length →
      ¬ Occ (tokL j) (write_fit_aux k vs s) := by
  intro vs
  induction vs with
  | nil => intro k j s _ h1 h2; simp at h2; omega
  | cons v vs ih =>
    intro k j s hval h1 h2
    rw [write_fit_cons]
    have hval' : ∀ w ∈ vs, roundHalfEven (w * 10000) < 100000 :=
      fun w hw => hval w (List.mem_cons_of_mem _ hw)
    rcases Nat.eq_or_lt_of_le h1 with rfl | hlt
    · obtain ⟨r0, rt, hfmt, hr0, ho⟩ := fmtF74_split (hval v (List.mem_cons_self _ _))
      refine write_fit_pull vs (k + 1) _ hval' (Or.inl (by omega)) ?_
      rw [hfmt]
      exact noleft_tok hr0 ho s
    · exact ih (k + 1) j _ hval' hlt (by simp at h2 ⊢; omega)

theorem write_fit_id :
    ∀ (vs : List ℚ) (k : Nat) (s : List Char),
      (∀ j, k ≤ j → j < k + vs.length → ¬ Occ (tokL j) s) →
      write_fit_aux k vs s = s := by
  intro vs
  induction vs with
  | nil => intro k s _; rfl
  | cons v vs ih =>
    intro k s h
    rw [write_fit_cons]
    rw [replaceAll_of_not_occ s (h k le_rfl (by simp))]
    exact ih (k + 1) s (fun j h1 h2 => h j (by omega) (by simp at h2 ⊢; omega))

theorem write_fit_keep {u0 : Char} {ut : List Char}
    (hu0 : u0 = ' ' ∨ u0 = '-') (hut : 'o' ∉ ut) :
    ∀ (vs : List ℚ) (k : Nat) (s : List Char),
      Occ (u0 :: ut) s → Occ (u0 :: ut) (write_fit_aux k vs s) := by
  intro vs
  induction vs with
  | nil => intro k s h; exact h
  | cons v vs ih =>
    intro k s h
    rw [write_fit_cons]
    refine ih (k + 1) _ ?_
    have hstep := @occ_replaceAll_preserve 'o' u0 ('p' :: 't' :: zfill 4 k) ut
      (fmtF74 v) (head_not_mem_toktail hu0 k) hut ?_ s h
    · simpa only [tokL] using hstep
    · intro he
      rcases hu0 with rfl | rfl <;> exact absurd he (by decide)

theorem write_fit_present :
    ∀ (vs : List ℚ) (k : Nat) (s : List Char) (i : Nat) (hi : i < vs.length),
      (∀ v ∈ vs, roundHalfEven (v * 10000) < 100000) →
      k + vs.length ≤ 10000 →
      Occ (tokL (k + i)) s →
      Occ (fmtF74 (vs.get ⟨i, hi⟩)) (write_fit_aux k vs s) := by
  intro vs
  induction vs with
  | nil => intro k s i hi; simp at hi
  | cons v vs ih =>
    intro k s i hi hval hk htok
    have hval' : ∀ w ∈ vs, roundHalfEven (w * 10000) < 100000 :=
      fun w hw => hval w (List.mem_cons_of_mem _ hw)
    cases i with
    | zero =>
      rw [write_fit_cons]
      obtain ⟨r0, rt, hfmt, hr0, ho⟩ := fmtF74_split (hval v (List.mem_cons_self _ _))
      have hocc0 : Occ (fmtF74 v) (replaceAll (tokL k) (fmtF74 v) s) := by
        have h0 : Occ (tokL k) s := by simpa using htok
        simp only [tokL] at h0 ⊢
        exact occ_rep_replaceAll _ s h0
      show Occ (fmtF74 v) _
      rw [hfmt]
      refine write_fit_keep hr0 ?_ vs (k + 1) _ (by rw [← hfmt]; exact hocc0)
      intro hmem
      exact ho (List.mem_cons_of_mem _ hmem)
    | succ i =>
      have hi' : i < vs.length := by simpa using hi
      rw [write_fit_cons]
      have hget : (v :: vs).get ⟨i + 1, hi⟩ = vs.get ⟨i, hi'⟩ := rfl
      rw [hget]
      refine ih (k + 1) _ i hi' hval' (by simp at hk ⊢; omega) ?_
      have hkj : k + (i + 1) ≠ k := by omega
      have hj4 : k + (i + 1) < 10000 := by simp at hk; omega
      have hk4 : k < 10000 := by simp at hk; omega
      have he : k + 1 + i = k + (i + 1) := by omega
      rw [he]
      exact keep_tok hkj hj4 hk4 (fmtF74 v) s htok

/-! ## Concrete evaluations of the rounding step (the rational arithmetic
does not reduce inside the kernel, so these are established once here and
used to rewrite before deciding character-level facts) -/

theorem rhe_three_halves : roundHalfEven ((3 / 2 : ℚ) * 10000) = 15000 := by
  unfold roundHalfEven
  norm_num

theorem rhe_neg_nine_quarters : roundHalfEven ((-9 / 4 : ℚ) * 10000) = -22500 := by
  unfold roundHalfEven
  norm_num

theorem rhe_zero : roundHalfEven ((0 : ℚ) * 10000) = 0 := by
  unfold roundHalfEven
  norm_num

theorem rhe_ten : roundHalfEven ((10 : ℚ) * 10000) = 100000 := by
  unfold roundHalfEven
  norm_num

theorem rhe_big : roundHalfEven ((12345 : ℚ) * 10000) = 123450000 := by
  unfold roundHalfEven
  norm_num

theorem fmt_three_halves : fmtF74 (3 / 2 : ℚ) = " 1.5000".toList := by
  rw [fmtF74, rhe_three_halves]
  decide

theorem fmt_neg_nine_quarters : fmtF74 (-9 / 4 : ℚ) = "-2.2500".toList := by
  rw [fmtF74, rhe_neg_nine_quarters]
  decide

theorem fmt_zero : fmtF74 (0 : ℚ) = " 0.0000".toList := by
  rw [fmtF74, rhe_zero]
  decide

theorem fmt_ten : fmtF74 (10 : ℚ) = "10.0000".toList := by
  rw [fmtF74, rhe_ten]
  decide

theorem fmt_big : fmtF74 (12345 : ℚ) = "12345.0000".toList := by
  rw [fmtF74, rhe_big]
  decide

/-! ## Lemmas: result extraction -/

theorem scanRFactor_none {lines : List (List Char)}
    (h : ∀ l ∈ lines, ¬ Occ rLabel l) : scanRFactor lines = none := by
  induction lines with
  | nil => rfl
  | cons l ls ih =>
    rw [scanRFactor]
    have hb : occB rLabel l = false := by
      have h2 := h l (List.mem_cons_self _ _)
      rw [Occ] at h2
      exact Bool.of_not_eq_true h2
    rw [if_neg (by rw [hb]; simp)]
    exact ih (fun m hm => h m (List.mem_cons_of_mem _ hm))

theorem get_results_no_file {flag : RmFlag} {w : WorkDir} (h : w.search_s = none) :
    get_results flag w = (false, .error .fileNotFound) := by
  rw [get_results, h]

theorem get_results_no_line {flag : RmFlag} {w : WorkDir} {lines : List (List Char)}
    (h : w.search_s = some lines) (hscan : scanRFactor lines = none) :
    get_results flag w =
      (rmflagTrue flag,
        if w.has_iv1 then Except.error PyErr.unboundLocal else Except.ok PyFloat.inf) := by
  rw [get_results, h]
  simp only [hscan]
  cases hm : w.has_iv1 <;> simp [hm]

theorem get_results_with_line {flag : RmFlag} {w : WorkDir} {lines : List (List Char)}
    {line : List Char} (h : w.search_s = some lines) (hscan : scanRFactor lines = some line) :
    get_results flag w =
      (match rfactorOfLine line with
        | .error e => (false, Except.error e)
        | .ok v => (rmflagTrue flag, Except.ok v)) := by
  rw [get_results, h]
  simp only [hscan]

/-! ## Underscore and name-splitting lemmas for the workspace name -/

theorem digit_ne_underscore {c : Char} (h : isDigitCh c = true) : c ≠ '_' := by
  rintro rfl
  exact absurd h (by decide)

theorem underscore_not_mem_zfill (k n : Nat) : '_' ∉ zfill k n := by
  intro h
  exact digit_ne_underscore (zfill_chars _ h) rfl

theorem split_at_sep {sep : Char} {B1 B2 : List Char} :
    ∀ A1 A2 : List Char, sep ∉ A1 → sep ∉ A2 →
      A1 ++ sep :: B1 = A2 ++ sep :: B2 → A1 = A2 ∧ B1 = B2 := by
  intro A1
  induction A1 with
  | nil =>
    intro A2 _ hA2 h
    cases A2 with
    | nil => simpa using h
    | cons a A2' =>
      exfalso
      have h2 : sep = a ∧ B1 = A2' ++ sep :: B2 := by simpa using h
      exact hA2 (by rw [← h2.1]; exact List.mem_cons_self _ _)
  | cons a A1' ih =>
    intro A2 hA1 hA2 h
    cases A2 with
    | nil =>
      exfalso
      have h2 : a = sep ∧ A1' ++ sep :: B1 = B2 := by simpa using h
      exact hA1 (by rw [h2.1]; exact List.mem_cons_self _ _)
    | cons b A2' =>
      have h2 : a = b ∧ A1' ++ sep :: B1 = A2' ++ sep :: B2 := by simpa using h
      obtain ⟨e1, e2⟩ := ih A2' (fun hm => hA1 (List.mem_cons_of_mem _ hm))
        (fun hm => hA2 (List.mem_cons_of_mem _ hm)) h2.2
      exact ⟨by rw [h2.1, e1], e2⟩

/-! ## Claim theorems -/

/-- Claim C7 (confirmed): the workspace directory name derived by
Solver.Input._pre_dir from a (step, set) pair of non-negative integers is
injective: distinct pairs give distinct names.  Determinism is immediate
since pre_dir_name is a function of the pair. -/
theorem c7_workspace_name_injective (s1 t1 s2 t2 : Nat)
    (h : (s1, t1) ≠ (s2, t2)) : pre_dir_name s1 t1 ≠ pre_dir_name s2 t2 := by
  intro he
  apply h
  rw [pre_dir_name, pre_dir_name, List.append_assoc, List.append_assoc] at he
  have h1 : zfill 8 s1 ++ '_' :: zfill 8 t1 = zfill 8 s2 ++ '_' :: zfill 8 t2 :=
    List.append_cancel_left he
  obtain ⟨e1, e2⟩ := split_at_sep _ _ (underscore_not_mem_zfill 8 s1)
    (underscore_not_mem_zfill 8 s2) h1
  rw [zfill_inj e1, zfill_inj e2]

/-- Witness for C7 at the concrete pairs (3, 7) and (7, 3), together with the
concrete evaluation of the derived name. -/
theorem c7_workspace_name_injective_witness :
    pre_dir_name 3 7 ≠ pre_dir_name 7 3 ∧
      pre_dir_name 3 7 = "Log00000003_00000007".toList :=
  ⟨c7_workspace_name_injective 3 7 7 3 (by decide), by decide⟩

/-- Claim C6 (corrected): under the amendment that the field width is at
least seven rather than exactly seven, and that every parameter rounds to
an absolute value below ten thousand ten-thousandths of magnitude keeping
the formatted field from starting with a digit, injection removes every
replaced token, creates no token occurrence anywhere, inserts each
formatted field, and each field carries exactly four digits after the
point.  The second conjunct gives the no-new-token guarantee for every
token index outside the replaced range. -/
theorem c6_injection_properties (vars : List ℚ) (s : List Char)
    (hN : vars.length ≤ 10000)
    (hval : ∀ v ∈ vars, roundHalfEven (v * 10000) < 100000)
    (hpres : ∀ j, j < vars.length → Occ (tokL j) s) :
    (∀ j, j < vars.length → ¬ Occ (tokL j) (write_fit_file vars s)) ∧
    (∀ j, vars.length ≤ j → ¬ Occ (tokL j) s → ¬ Occ (tokL j) (write_fit_file vars s)) ∧
    (∀ i, (hi : i < vars.length) → Occ (fmtF74 (vars.get ⟨i, hi⟩)) (write_fit_file vars s)) ∧
    (∀ v ∈ vars, 7 ≤ (fmtF74 v).length ∧
      ∃ pre d4, fmtF74 v = pre ++ '.' :: d4 ∧ d4.length = 4 ∧
        ∀ c ∈ d4, isDigitCh c = true) := by
  refine ⟨?_, ?_, ?_, ?_⟩
  · intro j hj
    exact write_fit_no_tok vars 0 j s hval (Nat.zero_le _) (by omega)
  · intro j hj hno
    exact write_fit_pull vars 0 s hval (Or.inr (by omega)) hno
  · intro i hi
    exact write_fit_present vars 0 s i hi hval (by omega) (by simpa using hpres i hi)
  · intro v _
    exact ⟨fmtOfInt_length _, fmtOfInt_fourdec _⟩

/-- Witness for C6 on the template from the end-to-end scenario of the spec
with parameters 1.5 and -2.25: both tokens are gone, both formatted fields
occur, and the fields evaluate to the exact seven-character strings the
claim names. -/
theorem c6_injection_properties_witness :
    (¬ Occ (tokL 0) (write_fit_file [(3 / 2 : ℚ), -9 / 4] "A opt0000 B opt0001 C".toList)) ∧
    (¬ Occ (tokL 1) (write_fit_file [(3 / 2 : ℚ), -9 / 4] "A opt0000 B opt0001 C".toList)) ∧
    Occ (" 1.5000".toList) (write_fit_file [(3 / 2 : ℚ), -9 / 4] "A opt0000 B opt0001 C".toList) ∧
    Occ ("-2.2500".toList) (write_fit_file [(3 / 2 : ℚ), -9 / 4] "A opt0000 B opt0001 C".toList) ∧
    fmtF74 (3 / 2 : ℚ) = " 1.5000".toList ∧ fmtF74 (-9 / 4 : ℚ) = "-2.2500".toList := by
  have hval : ∀ v ∈ [(3 / 2 : ℚ), -9 / 4], roundHalfEven (v * 10000) < 100000 := by
    intro v hv
    rcases List.mem_cons.mp hv with rfl | hv
    · rw [rhe_three_halves]; decide
    rcases List.mem_cons.mp hv with rfl | hv
    · rw [rhe_neg_nine_quarters]; decide
    · exact absurd hv (List.not_mem_nil v)
  have hpres : ∀ j, j < ([(3 / 2 : ℚ), -9 / 4]).length →
      Occ (tokL j) ("A opt0000 B opt0001 C".toList) := by
    intro j hj
    have hj2 : j < 2 := by simpa using hj
    interval_cases j <;> decide
  have h := c6_injection_properties [(3 / 2 : ℚ), -9 / 4] ("A opt0000 B opt0001 C".toList)
    (by decide) hval hpres
  refine ⟨h.1 0 (by decide), h.1 1 (by decide), ?_, ?_, fmt_three_halves, fmt_neg_nine_quarters⟩
  · have h2 := h.2.2.1 0 (by decide)
    rwa [show ([(3 / 2 : ℚ), -9 / 4].get ⟨0, by decide⟩) = (3 / 2 : ℚ) from rfl,
      fmt_three_halves] at h2
  · have h2 := h.2.2.1 1 (by decide)
    rwa [show ([(3 / 2 : ℚ), -9 / 4].get ⟨1, by decide⟩) = (-9 / 4 : ℚ) from rfl,
      fmt_neg_nine_quarters] at h2

/-- Counterexample for C6 as stated: the template optopt0000 contains
exactly the one placeholder token opt0000, yet injecting the single
parameter 12345.0 produces opt12345.0000, whose formatted field has width
ten rather than seven and which contains the four-digit token opt1234. -/
theorem c6_width_and_token_counterexample :
    Occ (tokL 0) "optopt0000".toList ∧
    (¬ Occ (tokL 1234) "optopt0000".toList) ∧
    write_fit_file [(12345 : ℚ)] "optopt0000".toList = "opt12345.0000".toList ∧
    Occ (tokL 1234) (write_fit_file [(12345 : ℚ)] "optopt0000".toList) ∧
    (fmtF74 (12345 : ℚ)).length ≠ 7 := by
  refine ⟨by decide, by decide, ?_, ?_, ?_⟩
  · simp only [write_fit_file, write_fit_cons, write_fit_nil, fmt_big]
    decide
  · simp only [write_fit_file, write_fit_cons, write_fit_nil, fmt_big]
    decide
  · rw [fmt_big]
    decide

/-- Claim C8 (corrected): injection is idempotent provided every parameter
value rounds below ten at four decimal places, so that its formatted field
begins with a space or a minus sign; the second application then finds no
placeholder token left and changes nothing. -/
theorem c8_injection_idempotent (vars : List ℚ) (s : List Char)
    (hval : ∀ v ∈ vars, roundHalfEven (v * 10000) < 100000) :
    write_fit_file vars (write_fit_file vars s) = write_fit_file vars s := by
  rw [write_fit_file, write_fit_file]
  exact write_fit_id vars 0 (write_fit_aux 0 vars s)
    (fun j h1 h2 => write_fit_no_tok vars 0 j s hval h1 (by omega))

/-- Witness for C8: one application of the injection with parameter 1.5 on
a small template, applied twice, is the same as once. -/
theorem c8_injection_idempotent_witness :
    write_fit_file [(3 / 2 : ℚ)] (write_fit_file [(3 / 2 : ℚ)] "x opt0000 y".toList) =
      write_fit_file [(3 / 2 : ℚ)] "x opt0000 y".toList := by
  refine c8_injection_idempotent [(3 / 2 : ℚ)] _ ?_
  intro v hv
  rcases List.mem_cons.mp hv with rfl | hv
  · rw [rhe_three_halves]; decide
  · exact absurd hv (List.not_mem_nil v)

/-- Counterexample for C8 as stated: on the template opt00opt0011 with the
twelve parameters 0, ..., 0, 10, the first application rewrites the token
opt0011 into 10.0000, which joins the preceding text opt00 to spell the
token opt0010; a second application replaces that as well, so running the
injection twice differs from running it once. -/
theorem c8_idempotence_counterexample :
    write_fit_file [(0 : ℚ), 0, 0, 0, 0, 0, 0, 0, 0, 0, 0, 10] "opt00opt0011".toList =
      "opt0010.0000".toList ∧
    write_fit_file [(0 : ℚ), 0, 0, 0, 0, 0, 0, 0, 0, 0, 0, 10]
        (write_fit_file [(0 : ℚ), 0, 0, 0, 0, 0, 0, 0, 0, 0, 0, 10] "opt00opt0011".toList) =
      " 0.0000.0000".toList ∧
    write_fit_file [(0 : ℚ), 0, 0, 0, 0, 0, 0, 0, 0, 0, 0, 10]
        (write_fit_file [(0 : ℚ), 0, 0, 0, 0, 0, 0, 0, 0, 0, 0, 10] "opt00opt0011".toList) ≠
      write_fit_file [(0 : ℚ), 0, 0, 0, 0, 0, 0, 0, 0, 0, 0, 10] "opt00opt0011".toList := by
  refine ⟨?_, ?_, ?_⟩ <;>
    simp only [write_fit_file, write_fit_cons, write_fit_nil, fmt_zero, fmt_ten] <;>
    decide

/-- Claim C1 (corrected): when the marker file iv 1 is absent, get_results
returns positive infinity provided search.s contains no R-FACTOR line; a
parsed R-FACTOR line overrides the sentinel (see the counterexample). -/
theorem c1_marker_absent_sentinel (flag : RmFlag) (w : WorkDir)
    (lines : List (List Char)) (hfile : w.search_s = some lines)
    (hmarker : w.has_iv1 = false) (hnoline : ∀ l ∈ lines, ¬ Occ rLabel l) :
    (get_results flag w).2 = Except.ok PyFloat.inf := by
  rw [get_results_no_line hfile (scanRFactor_none hnoline), hmarker]
  simp

/-- Witness for C1 at a workspace with the marker absent and a search.s
holding one line without the label. -/
theorem c1_marker_absent_sentinel_witness :
    (get_results (RmFlag.pybool false)
        ⟨false, some ["no factor written here".toList]⟩).2 = Except.ok PyFloat.inf := by
  refine c1_marker_absent_sentinel (RmFlag.pybool false) _ ["no factor written here".toList]
    rfl rfl ?_
  intro l hl
  rw [List.mem_singleton.mp hl]
  decide

/-- Counterexample for C1 as stated: with the marker file absent but
search.s containing the parsable line R-FACTOR = 0.25, get_results returns
the parsed finite value 0.25 and not positive infinity. -/
theorem c1_rfactor_line_overrides_sentinel :
    (get_results (RmFlag.pybool false)
        ⟨false, some ["R-FACTOR = 0.25".toList]⟩).2 =
      Except.ok (PyFloat.fin (((25 : ℤ) : ℚ) / 10 ^ (2 : ℕ))) ∧
    Except.ok (PyFloat.fin (((25 : ℤ) : ℚ) / 10 ^ (2 : ℕ))) ≠
      (Except.ok PyFloat.inf : Except PyErr PyFloat) ∧
    (((25 : ℤ) : ℚ) / 10 ^ (2 : ℕ)) = 1 / 4 := by
  refine ⟨?_, by simp, by norm_num⟩
  have hscan : scanRFactor ["R-FACTOR = 0.25".toList] = some ("R-FACTOR = 0.25".toList) := by
    decide
  rw [@get_results_with_line (RmFlag.pybool false)
    ⟨false, some ["R-FACTOR = 0.25".toList]⟩ _ _ rfl hscan]
  have hdec : (splitOnChar '=' ("R-FACTOR = 0.25".toList)).get? 1 = some (" 0.25".toList) := by
    decide
  have hp : parsePyDec (" 0.25".toList) = some ((25 : ℤ), 2) := by decide
  rw [rfactorOfLine, hdec]
  simp only [parsePyFloat, hp, Option.map_some']

/-- Claim C4 (confirmed): with the marker file present and no R-FACTOR line
in search.s, the local variable rfactor is never assigned and get_results
fails with UnboundLocalError instead of returning a number. -/
theorem c4_unbound_result_without_rfactor_line (flag : RmFlag) (w : WorkDir)
    (lines : List (List Char)) (hfile : w.search_s = some lines)
    (hmarker : w.has_iv1 = true) (hnoline : ∀ l ∈ lines, ¬ Occ rLabel l) :
    (get_results flag w).2 = Except.error PyErr.unboundLocal := by
  rw [get_results_no_line hfile (scanRFactor_none hnoline), hmarker]
  simp

/-- Witness for C4 at a workspace with the marker present and a label-free
search.s line. -/
theorem c4_unbound_result_witness :
    (get_results (RmFlag.pybool false)
        ⟨true, some ["no factor written here".toList]⟩).2 =
      Except.error PyErr.unboundLocal := by
  refine c4_unbound_result_without_rfactor_line (RmFlag.pybool false) _
    ["no factor written here".toList] rfl rfl ?_
  intro l hl
  rw [List.mem_singleton.mp hl]
  decide

/-- Claim C5 (confirmed): get_results opens search.s unconditionally, so a
missing search.s raises FileNotFoundError before any value is produced and
before any cleanup, even when the marker file is also absent. -/
theorem c5_missing_search_s_file_not_found (flag : RmFlag) (w : WorkDir)
    (h : w.search_s = none) :
    get_results flag w = (false, Except.error PyErr.fileNotFound) :=
  get_results_no_file h

/-- Witness for C5 at a workspace with neither the marker nor search.s,
under a cleanup flag that would trigger removal. -/
theorem c5_missing_search_s_witness :
    get_results (RmFlag.pystr "true".toList) ⟨false, none⟩ =
      (false, Except.error PyErr.fileNotFound) :=
  c5_missing_search_s_file_not_found (RmFlag.pystr "true".toList) ⟨false, none⟩ rfl

/-- Claim C2 (code bug): a boolean remove_work_dir flag never removes the
workspace, because the source compares the flag against the string "true";
the removed component of get_results is false for every boolean flag and
every workspace state, contradicting the documented cleanup contract. -/
theorem c2_bool_flag_never_removes_workdir (b : Bool) (w : WorkDir) :
    (get_results (RmFlag.pybool b) w).1 = false := by
  cases hs : w.search_s with
  | none => rw [get_results_no_file hs]
  | some lines =>
    cases hscan : scanRFactor lines with
    | none =>
      rw [get_results_no_line hs hscan]
      rfl
    | some line =>
      rw [get_results_with_line hs hscan]
      cases rfactorOfLine line <;> rfl

/-- Claim C3 (code bug): the working-directory switch in Solver.prepare is
not exception-safe; when the injection step raises, the error propagates
with the process still inside the workspace directory, because the chdir
back to the saved directory is skipped. -/
theorem c3_injection_error_leaves_workspace_cwd (cwd0 work_dir : List Char) (e : PyErr) :
    prepare_cwd cwd0 work_dir (fun _ => Except.error e) =
      (work_dir, Except.error e) := rfl

/-- Claim C9 (confirmed): construction passes the reference-file check
exactly when all four required files are present, and when a required file
is missing it fails with the InputError message naming a missing file and
the reference directory. -/
theorem c9_reference_file_check (present : String → Bool) (base_dir : String) :
    (check_reference_files present base_dir = Except.ok () ↔
      ∀ f ∈ required_files, present f = true) ∧
    (∀ f ∈ required_files, present f = false →
      ∃ g, g ∈ required_files ∧ present g = false ∧
        check_reference_files present base_dir = Except.error (missing_msg g base_dir)) := by
  have hok : ∀ fs : List String,
      (check_files_from present base_dir fs = Except.ok () ↔ ∀ f ∈ fs, present f = true) := by
    intro fs
    induction fs with
    | nil => simp [check_files_from]
    | cons f fs ih =>
      rw [check_files_from]
      by_cases hp : present f = true
      · rw [if_pos hp, ih]
        constructor
        · intro h g hg
          rcases List.mem_cons.mp hg with rfl | hg
          · exact hp
          · exact h g hg
        · intro h g hg
          exact h g (List.mem_cons_of_mem _ hg)
      · rw [if_neg hp]
        constructor
        · intro h
          exact absurd h (by simp)
        · intro h
          exact absurd (h f (List.mem_cons_self _ _)) hp
  have herr : ∀ fs : List String, (∃ f ∈ fs, present f = false) →
      ∃ g, g ∈ fs ∧ present g = false ∧
        check_files_from present base_dir fs = Except.error (missing_msg g base_dir) := by
    intro fs
    induction fs with
    | nil => rintro ⟨f, hf, _⟩; exact absurd hf (List.not_mem_nil f)
    | cons f fs ih =>
      intro h
      by_cases hp : present f = true
      · have hex : ∃ f0 ∈ fs, present f0 = false := by
          obtain ⟨f0, hf0, hf0f⟩ := h
          rcases List.mem_cons.mp hf0 with rfl | hf0
          · rw [hp] at hf0f
            exact absurd hf0f (by decide)
          · exact ⟨f0, hf0, hf0f⟩
        obtain ⟨g, hg, hgf, he⟩ := ih hex
        exact ⟨g, List.mem_cons_of_mem _ hg, hgf,
          by rw [check_files_from, if_pos hp]; exact he⟩
      · have hpf : present f = false := Bool.of_not_eq_true hp
        exact ⟨f, List.mem_cons_self _ _, hpf,
          by rw [check_files_from, if_neg hp]⟩
  exact ⟨hok required_files, fun f hf hff => herr required_files ⟨f, hf, hff⟩⟩

/-- Witness for C9: with rfac.d missing the check fails with the message
naming rfac.d and the directory, and with everything present it passes. -/
theorem c9_reference_file_check_witness :
    check_reference_files (fun f => f != "rfac.d") "base" =
      Except.error (missing_msg "rfac.d" "base") ∧
    check_reference_files (fun _ => true) "base" = Except.ok () := by
  constructor
  · obtain ⟨g, hg, hgf, he⟩ :=
      (c9_reference_file_check (fun f => f != "rfac.d") "base").2 "rfac.d" (by decide) (by decide)
    have hgr : g = "rfac.d" := by
      fin_cases hg
      · exact absurd hgf (by decide)
      · rfl
      · exact absurd hgf (by decide)
      · exact absurd hgf (by decide)
    rwa [hgr] at he
  · exact (c9_reference_file_check (fun _ => true) "base").1.mpr (fun f _ => rfl)

/-- Claim C10 (confirmed): a non-zero exit status from either external
solver is caught inside run and only logged, run itself returns normally
with no propagated error, and when the first solver fails the second is
never invoked. -/
theorem c10_run_swallows_failures (ec1 ec2 : Nat) :
    (solver_run ec1 ec2).propagated = none ∧
    ((ec1 ≠ 0 ∨ ec2 ≠ 0) → (solver_run ec1 ec2).logged = true) ∧
    (ec1 ≠ 0 → (solver_run ec1 ec2).second_invoked = false) := by
  unfold solver_run run_by_subprocess
  by_cases h1 : ec1 = 0 <;> by_cases h2 : ec2 = 0 <;> simp [h1, h2]

/-- Witness for C10 at exit statuses 1 and 7: the failure of the first
solver is only logged, nothing propagates, and the second solver is not
invoked. -/
theorem c10_run_swallows_failures_witness :
    (solver_run 1 7).propagated = none ∧ (solver_run 1 7).logged = true ∧
      (solver_run 1 7).second_invoked = false :=
  ⟨(c10_run_swallows_failures 1 7).1,
   (c10_run_swallows_failures 1 7).2.1 (Or.inl (by decide)),
   (c10_run_swallows_failures 1 7).2.2 (by decide)⟩
